import Mathlib

/-!
Verification of the filesystem cache of babel-loader (src/cache.js).

The development shallowly embeds the JavaScript source into Lean:

* JSON values are modelled by the inductive type `JValue` (numbers are
  restricted to integers; the cached data of interest — sources, option
  objects, babel results — is structured data, strings and flags).
* The platform collaborators (`JSON.stringify`, `JSON.parse`, `zlib`,
  `fs`, `os.tmpdir`, `make-dir`) are not code of this repository; they
  are modelled from the spec, as documented on each definition.
* The repository functions `read`, `write`, `updatePath`, `filename`
  and `handleCache` are translated from src/cache.js definition by
  definition, keeping their names.
-/

namespace BabelCache

/-- Model of a JSON value (the data handled by `JSON.stringify` /
`JSON.parse`): null, booleans, numbers (restricted to integers),
strings, arrays, and objects as ordered field lists. -/
inductive JValue where
  | jnull : JValue
  | jbool : Bool → JValue
  | jnum : Int → JValue
  | jstr : String → JValue
  | arr : List JValue → JValue
  | obj : List (String × JValue) → JValue

/-- Property access `v[key]` as in JavaScript: a field of an object,
and `undefined` (here `none`) on anything else. -/
def jGet (v : JValue) (key : String) : Option JValue :=
  match v with
  | .obj fs => lookupField fs key
  | _ => none
where
  lookupField : List (String × JValue) → String → Option JValue
    | [], _ => none
    | (k, x) :: fs, key => if k = key then some x else lookupField fs key

/-- Assignment `v[key] = x` to an already-present field of an object,
preserving field order; anything else is returned unchanged. -/
def jSet (v : JValue) (key : String) (x : JValue) : JValue :=
  match v with
  | .obj fs => .obj (setField fs key x)
  | other => other
where
  setField : List (String × JValue) → String → JValue → List (String × JValue)
    | [], _, _ => []
    | (k, y) :: fs, key, x =>
      if k = key then (k, x) :: fs else (k, y) :: setField fs key x

/-- Truthiness of a JSON value under JavaScript coercion rules. -/
def jTruthy : JValue → Bool
  | .jnull => false
  | .jbool b => b
  | .jnum n => n != 0
  | .jstr s => s ≠ ""
  | .arr _ => true
  | .obj _ => true

/-! ### JSON serialization

Modelled from the spec: `JSON.stringify` is a platform builtin, not
repository code. The model prints the canonical compact JSON text:
object fields in insertion order, no whitespace, strings quoted with
`"` and `\` escaped. (Control characters inside strings are left
unescaped by the model; no claim depends on their concrete bytes.) -/

/-- Escaping of one character inside a JSON string literal. -/
def escChar (c : Char) : List Char :=
  if c = '"' || c = '\\' then ['\\', c] else [c]

/-- Escaping of a whole string body. -/
def escStr : List Char → List Char
  | [] => []
  | c :: r => escChar c ++ escStr r

/-- Character of a decimal digit. -/
def digitChar (n : Nat) : Char := Char.ofNat (48 + n)

/-- Decimal digits of a natural number, most significant first; the
fuel argument bounds the recursion depth and is in excess at `n + 1`. -/
def natCharsF : Nat → Nat → List Char
  | 0, _ => []
  | f + 1, n => if n < 10 then [digitChar n] else natCharsF f (n / 10) ++ [digitChar (n % 10)]

/-- Decimal representation of a natural number. -/
def natChars (n : Nat) : List Char := natCharsF (n + 1) n

/-- Decimal representation of an integer. -/
def intChars (i : Int) : List Char :=
  if i < 0 then '-' :: natChars i.natAbs else natChars i.toNat

mutual

/-- JSON text of a value (as a character list). -/
def strV : JValue → List Char
  | .jnull => "null".data
  | .jbool true => "true".data
  | .jbool false => "false".data
  | .jnum n => intChars n
  | .jstr s => '"' :: escStr s.data ++ ['"']
  | .arr xs => '[' :: strL xs ++ [']']
  | .obj fs => '{' :: strF fs ++ ['}']

/-- JSON text of the comma-separated elements of an array. -/
def strL : List JValue → List Char
  | [] => []
  | [x] => strV x
  | x :: y :: xs => strV x ++ ',' :: strL (y :: xs)

/-- JSON text of the comma-separated fields of an object. -/
def strF : List (String × JValue) → List Char
  | [] => []
  | [(k, v)] => '"' :: escStr k.data ++ '"' :: ':' :: strV v
  | (k, v) :: f :: fs => '"' :: escStr k.data ++ '"' :: ':' :: strV v ++ ',' :: strF (f :: fs)

end

/-- Model of `JSON.stringify`. -/
def stringifyJson (v : JValue) : List Char := strV v

/-! ### JSON parsing

Modelled from the spec: `JSON.parse` is a platform builtin, not
repository code. The model is a strict recursive-descent parser for
the canonical JSON text emitted by `stringifyJson`; lenience of the
real parser (whitespace, floats, unicode escapes) is omitted — on all
other inputs the model fails, as the real parser does on garbage. -/

/-- Parse of the body of a string literal up to its closing quote,
undoing `escStr`; returns the body and the remaining input. -/
def parseStrBody : List Char → Option (List Char × List Char)
  | [] => none
  | '"' :: r => some ([], r)
  | '\\' :: r =>
    match r with
    | [] => none
    | c :: r2 =>
      match parseStrBody r2 with
      | some (cs, rest) => some (c :: cs, rest)
      | none => none
  | c :: r =>
    match parseStrBody r with
    | some (cs, rest) => some (c :: cs, rest)
    | none => none

/-- Test for a decimal digit character. -/
def isDigitC (c : Char) : Bool := 48 ≤ c.toNat && c.toNat ≤ 57

/-- Parse of a run of decimal digits, folded onto an accumulator. -/
def parseDigits : List Char → Nat → Nat × List Char
  | [], acc => (acc, [])
  | c :: r, acc => if isDigitC c then parseDigits r (acc * 10 + (c.toNat - 48)) else (acc, c :: r)

/-- Parse of the comma-separated elements of a nonempty array given a
parser for one value; the fuel bounds the number of elements. -/
def parseElems (pv : List Char → Option (JValue × List Char)) :
    Nat → List Char → Option (List JValue × List Char)
  | 0, _ => none
  | fuel + 1, s =>
    match pv s with
    | none => none
    | some (v, r) =>
      match r with
      | ',' :: r2 =>
        match parseElems pv fuel r2 with
        | some (vs, rest) => some (v :: vs, rest)
        | none => none
      | ']' :: r2 => some ([v], r2)
      | _ => none

/-- Parse of the comma-separated fields of a nonempty object given a
parser for one value; the fuel bounds the number of fields. -/
def parseFields (pv : List Char → Option (JValue × List Char)) :
    Nat → List Char → Option (List (String × JValue) × List Char)
  | 0, _ => none
  | fuel + 1, s =>
    match s with
    | '"' :: r =>
      match parseStrBody r with
      | none => none
      | some (k, r1) =>
        match r1 with
        | ':' :: r2 =>
          match pv r2 with
          | none => none
          | some (v, r3) =>
            match r3 with
            | ',' :: r4 =>
              match parseFields pv fuel r4 with
              | some (fs, rest) => some ((⟨k⟩, v) :: fs, rest)
              | none => none
            | '}' :: r4 => some ([(⟨k⟩, v)], r4)
            | _ => none
        | _ => none
    | _ => none

/-- Parse of one JSON value; the fuel bounds the nesting depth. -/
def parseVal : Nat → List Char → Option (JValue × List Char)
  | 0, _ => none
  | fuel + 1, s =>
    match s with
    | 'n' :: 'u' :: 'l' :: 'l' :: r => some (.jnull, r)
    | 't' :: 'r' :: 'u' :: 'e' :: r => some (.jbool true, r)
    | 'f' :: 'a' :: 'l' :: 's' :: 'e' :: r => some (.jbool false, r)
    | '"' :: r =>
      match parseStrBody r with
      | some (cs, rest) => some (.jstr ⟨cs⟩, rest)
      | none => none
    | '-' :: c :: r =>
      if isDigitC c then
        match parseDigits r (c.toNat - 48) with
        | (n, rest) => some (.jnum (-(n : Int)), rest)
      else none
    | '[' :: ']' :: rest => some (.arr [], rest)
    | '[' :: r =>
      match parseElems (parseVal fuel) (r.length + 1) r with
      | some (vs, rest) => some (.arr vs, rest)
      | none => none
    | '{' :: '}' :: rest => some (.obj [], rest)
    | '{' :: r =>
      match parseFields (parseVal fuel) (r.length + 1) r with
      | some (fs, rest) => some (.obj fs, rest)
      | none => none
    | c :: r =>
      if isDigitC c then
        match parseDigits r (c.toNat - 48) with
        | (n, rest) => some (.jnum (n : Int), rest)
      else none
    | [] => none

/-- Model of `JSON.parse`: parse a full JSON text, requiring the whole
input to be consumed; any leftover or malformed input fails. -/
def parseJson (s : List Char) : Option JValue :=
  match parseVal (s.length + 1) s with
  | some (v, []) => some v
  | _ => none

/-! ### The dependency-directory marker split

The source normalizes plugin/preset paths with
`request.split('/node_modules/').slice(-1)[0]`. JavaScript
`String.prototype.split` with a nonempty separator scans left to
right, greedily consuming non-overlapping occurrences of the
separator. `splitGo` models that scan; the fuel argument bounds the
number of scanned characters and is in excess at `length + 1`. -/

/-- Character list of the dependency-directory marker. -/
def markerChars : List Char := "/node_modules/".data

/-- Greedy leftmost split of a character list on a nonempty separator,
with an accumulator holding the current segment reversed. -/
def splitGo (sep : List Char) (fuel : Nat) (s acc : List Char) : List (List Char) :=
  match fuel with
  | 0 => [acc.reverse ++ s]
  | f + 1 =>
    if sep.isPrefixOf s then acc.reverse :: splitGo sep f (s.drop sep.length) []
    else
      match s with
      | [] => [acc.reverse]
      | c :: r => splitGo sep f r (c :: acc)

/-- Model of `s.split(sep)` for a nonempty separator. -/
def jsSplit (sep : String) (s : String) : List String :=
  (splitGo sep.data (s.data.length + 1) s.data []).map fun cs => ⟨cs⟩

/-- Model of `s.split(sep).slice(-1)[0]`: the last segment of the
greedy split (a split result is never empty, so the JS expression is
never undefined). -/
def lastSegment (sep : String) (s : String) : String :=
  (jsSplit sep s).getLastD ""

/-! ### updatePath and filename (src/cache.js, the key deriver) -/

/-- One conditional replacement step of `updatePath`:
`if (v) { file[key] = v.split('/node_modules/').slice(-1)[0] }`.
A truthy non-string value throws (`split` is not a function); a falsy
or absent value leaves the file object untouched. -/
def updateField (file : JValue) (key : String) (v : Option JValue) :
    Except String JValue :=
  match v with
  | none => .ok file
  | some v =>
    if jTruthy v then
      match v with
      | .jstr s => .ok (jSet file key (.jstr (lastSegment "/node_modules/" s)))
      | _ => .error "TypeError: split is not a function"
    else .ok file

/-- updatePath of src/cache.js. Destructuring `const { file } = item`
throws on a null item; `const { resolved, request } = file` throws
when the item has no (or a null) `file` property. Both `request` and
`resolved` are read from the original file object, then the
replacements are applied in order, and the result is the item with the
updated file object (the source mutates the file object shared between
`item` and the shallow copy `result`, so the pure update is faithful). -/
def updatePath (item : JValue) : Except String JValue :=
  match item with
  | .jnull => .error "TypeError: cannot destructure null"
  | _ =>
    match jGet item "file" with
    | none => .error "TypeError: cannot destructure undefined"
    | some .jnull => .error "TypeError: cannot destructure null"
    | some file =>
      match updateField file "request" (jGet file "request") with
      | .error e => .error e
      | .ok file1 =>
        match updateField file1 "resolved" (jGet file "resolved") with
        | .error e => .error e
        | .ok file2 => .ok (jSet item "file" file2)

/-- Normalization step of `filename` in src/cache.js: the deep copy
`JSON.parse(JSON.stringify(options))` followed by mapping `updatePath`
over the `plugins` and `presets` fields when they are arrays
(`Array.isArray`); a throw inside either map propagates. Both fields
are destructured from the copy before either is reassigned, exactly as
in the source. -/
def normalizeOptions (options : JValue) : Except String JValue :=
  match parseJson (stringifyJson options) with
  | none => .error "SyntaxError: unexpected end of JSON input"
  | some co =>
    let plugins := jGet co "plugins"
    let presets := jGet co "presets"
    match mapArray plugins with
    | .error e => .error e
    | .ok items1 =>
      let co1 := applySet co "plugins" items1
      match mapArray presets with
      | .error e => .error e
      | .ok items2 => .ok (applySet co1 "presets" items2)
where
  mapArray : Option JValue → Except String (Option (List JValue))
    | some (.arr items) =>
      match items.mapM updatePath with
      | .ok l => .ok (some l)
      | .error e => .error e
    | _ => .ok none
  applySet (co : JValue) (key : String) : Option (List JValue) → JValue
    | some l => jSet co key (.arr l)
    | none => co

/-! ### MD4

The source hashes the serialized triple with `crypto.createHash("md4")`
and emits the digest in lowercase hex. MD4 (RFC 1320) is implemented
here over `Nat` with explicit reduction modulo `2 ^ 32`. -/

/-- UTF-8 encoding of a character list (bytes as naturals below 256);
`hash.update(contents)` hashes the UTF-8 bytes of the string. -/
def utf8Bytes : List Char → List Nat
  | [] => []
  | c :: r =>
    (let n := c.toNat
     if n < 128 then [n]
     else if n < 2048 then [192 + n / 64, 128 + n % 64]
     else if n < 65536 then [224 + n / 4096, 128 + (n / 64) % 64, 128 + n % 64]
     else [240 + n / 262144, 128 + (n / 4096) % 64, 128 + (n / 64) % 64, 128 + n % 64])
    ++ utf8Bytes r

/-- Truncation to a 32-bit word. -/
def w32 (n : Nat) : Nat := n % 4294967296

/-- Left rotation of a 32-bit word. -/
def rotl32 (x s : Nat) : Nat := (x % 2 ^ (32 - s)) * 2 ^ s + x / 2 ^ (32 - s)

/-- Round function F of MD4: (x AND y) OR ((NOT x) AND z). -/
def fF (x y z : Nat) : Nat := (x &&& y) ||| ((x ^^^ 4294967295) &&& z)

/-- Round function G of MD4: majority. -/
def fG (x y z : Nat) : Nat := (x &&& y) ||| (x &&& z) ||| (y &&& z)

/-- Round function H of MD4: parity. -/
def fH (x y z : Nat) : Nat := x ^^^ y ^^^ z

/-- MD4 padding: a 0x80 byte, zeros to 56 mod 64, and the bit length
as a 64-bit little-endian quantity. -/
def padMessage (msg : List Nat) : List Nat :=
  let len := msg.length
  let zeros := (64 + 56 - (len % 64 + 1)) % 64
  let bitLen := 8 * len
  msg ++ 128 :: List.replicate zeros 0 ++
    [bitLen % 256, bitLen / 256 % 256, bitLen / 65536 % 256, bitLen / 16777216 % 256,
     bitLen / 4294967296 % 256, bitLen / 1099511627776 % 256,
     bitLen / 281474976710656 % 256, bitLen / 72057594037927936 % 256]

/-- Split a byte list into chunks of 64; the fuel is in excess at the
length of the list. -/
def chunk64F : Nat → List Nat → List (List Nat)
  | 0, _ => []
  | _, [] => []
  | fuel + 1, l => l.take 64 :: chunk64F fuel (l.drop 64)

/-- Little-endian 32-bit words of a 64-byte block. -/
def blockWords : List Nat → List Nat
  | b0 :: b1 :: b2 :: b3 :: rest => (b0 + 256 * b1 + 65536 * b2 + 16777216 * b3) :: blockWords rest
  | _ => []

/-- One MD4 operation: the active word is updated from the other three
and the message word, then the state rotates so that the next active
word comes first. -/
def md4Op (f : Nat → Nat → Nat → Nat) (cst : Nat) (X : List Nat)
    (st : Nat × Nat × Nat × Nat) (ks : Nat × Nat) : Nat × Nat × Nat × Nat :=
  match st, ks with
  | (w, x, y, z), (k, s) => (z, rotl32 (w32 (w + f x y z + X.getD k 0 + cst)) s, x, y)

/-- Message-word indices and shifts of round 1. -/
def round1List : List (Nat × Nat) :=
  [(0, 3), (1, 7), (2, 11), (3, 19), (4, 3), (5, 7), (6, 11), (7, 19),
   (8, 3), (9, 7), (10, 11), (11, 19), (12, 3), (13, 7), (14, 11), (15, 19)]

/-- Message-word indices and shifts of round 2. -/
def round2List : List (Nat × Nat) :=
  [(0, 3), (4, 5), (8, 9), (12, 13), (1, 3), (5, 5), (9, 9), (13, 13),
   (2, 3), (6, 5), (10, 9), (14, 13), (3, 3), (7, 5), (11, 9), (15, 13)]

/-- Message-word indices and shifts of round 3. -/
def round3List : List (Nat × Nat) :=
  [(0, 3), (8, 9), (4, 11), (12, 15), (2, 3), (10, 9), (6, 11), (14, 15),
   (1, 3), (9, 9), (5, 11), (13, 15), (3, 3), (11, 9), (7, 11), (15, 15)]

/-- MD4 compression of one 64-byte block. -/
def processBlock (st : Nat × Nat × Nat × Nat) (block : List Nat) : Nat × Nat × Nat × Nat :=
  let X := blockWords block
  match st with
  | (a0, b0, c0, d0) =>
    let s1 := List.foldl (md4Op fF 0 X) (a0, b0, c0, d0) round1List
    let s2 := List.foldl (md4Op fG 1518500249 X) s1 round2List
    let s3 := List.foldl (md4Op fH 1859775393 X) s2 round3List
    match s3 with
    | (a, b, c, d) => (w32 (a0 + a), w32 (b0 + b), w32 (c0 + c), w32 (d0 + d))

/-- Character of a lowercase hexadecimal digit. -/
def hexDigit (n : Nat) : Char := if n < 10 then digitChar n else Char.ofNat (87 + n)

/-- Two lowercase hex characters of a byte. -/
def byteHex (b : Nat) : List Char := [hexDigit (b / 16), hexDigit (b % 16)]

/-- Little-endian bytes of a 32-bit word. -/
def wordLEBytes (x : Nat) : List Nat :=
  [x % 256, x / 256 % 256, x / 65536 % 256, x / 16777216 % 256]

/-- MD4 digest of a byte list, as the lowercase hex string produced by
`hash.digest("hex")`. -/
def md4Hex (msg : List Nat) : String :=
  let padded := padMessage msg
  let blocks := chunk64F padded.length padded
  match List.foldl processBlock (1732584193, 4023233417, 2562383102, 271733878) blocks with
  | (a, b, c, d) =>
    ⟨((wordLEBytes a ++ wordLEBytes b ++ wordLEBytes c ++ wordLEBytes d).map byteHex).flatten⟩

/-- filename of src/cache.js: build the name of the cache entry file
from the source, the cache identifier and the options. The options are
deep-copied via `JSON.parse(JSON.stringify(·))`, plugins/presets paths
are normalized by `updatePath` (a throw propagates), the triple is
serialized with the fixed key order `source`, `options`, `identifier`,
and the MD4 digest of that text plus the extension `.json` is the
result. -/
def filename (source identifier : String) (options : JValue) : Except String String :=
  match normalizeOptions options with
  | .error e => .error e
  | .ok cacheOptions =>
    let contents := stringifyJson
      (.obj [("source", .jstr source), ("options", cacheOptions), ("identifier", .jstr identifier)])
    .ok (md4Hex (utf8Bytes contents) ++ ".json")

/-! ### The store, the world and handleCache -/

/-- Modelled from the spec: zlib.gzip, a general-purpose lossless
compression pass; modelled as prepending the two gzip magic bytes
(0x1f 0x8b) to the payload. -/
def gzipC (s : List Char) : List Char := Char.ofNat 31 :: Char.ofNat 139 :: s

/-- Modelled from the spec: zlib.gunzip, the inverse pass; rejects
data that does not start with the gzip magic bytes. -/
def gunzipC (s : List Char) : Option (List Char) :=
  match s with
  | c1 :: c2 :: rest =>
    if c1 = Char.ofNat 31 && c2 = Char.ofNat 139 then some rest else none
  | _ => none

/-- Modelled from the spec: the filesystem and directory environment
seen by one cache operation — file contents by path (first match
wins, newest first), the directories on which `makeDir` rejects, and
the paths on which `writeFile` rejects. -/
structure World where
  files : List (String × List Char)
  badDirs : List String
  badWrites : List String

/-- Lookup of the contents of a file, `none` when absent (ENOENT). -/
def getFileW (w : World) (p : String) : Option (List Char) :=
  go w.files
where
  go : List (String × List Char) → Option (List Char)
    | [] => none
    | (q, data) :: rest => if q = p then some data else go rest

/-- Creation or overwrite of a file. -/
def putFileW (w : World) (p : String) (data : List Char) : World :=
  { w with files := (p, data) :: w.files }

/-- Modelled from the spec: os.tmpdir(), the system temporary
directory, a process-wide constant. -/
def tmpdir : String := "/tmp"

/-- Model of path.join for the one use in handleCache. -/
def pathJoin (d f : String) : String := d ++ "/" ++ f

/-- read of src/cache.js: read the entry file (with the `.gz`
extension when compression is on), decompress if requested, and
`JSON.parse` the text. Every failure — missing file, gunzip failure on
corrupt data, JSON parse failure — is a rejection, collapsed to `none`
here because the only caller catches and ignores the error. -/
def read (w : World) (file : String) (compress : Bool) : Option JValue :=
  match getFileW w (file ++ if compress then ".gz" else "") with
  | none => none
  | some data =>
    match (if compress then gunzipC data else some data) with
    | none => none
    | some content => parseJson content

/-- write of src/cache.js: `JSON.stringify` the result, gzip it when
compression is on, and write it to the entry file (with the `.gz`
extension when compression is on); `none` models a writeFile
rejection. -/
def write (w : World) (file : String) (compress : Bool) (result : JValue) : Option World :=
  if (file ++ (if compress then ".gz" else "")) ∈ w.badWrites then none
  else
    some (putFileW w (file ++ (if compress then ".gz" else ""))
      (if compress then gzipC (stringifyJson result) else stringifyJson result))

/-- Parameters of one cache request (the `params` object). A
`cacheDirectory` of `none` models any non-string value (the source
tests `typeof cacheDirectory !== "string"`); an absent `options`
triggers the destructuring default `{}`. -/
structure Params where
  source : String
  options : Option JValue
  cacheIdentifier : String
  cacheDirectory : Option String
  cacheCompression : Bool

/-- Effective options after the destructuring default `options = {}`. -/
def optionsEff (p : Params) : JValue := p.options.getD (.obj [])

/-- Error surfaced by one cache operation. -/
inductive CacheErr where
  | keyErr : String → CacheErr
  | dirErr : CacheErr
  | transformErr : String → CacheErr
  | writeErr : CacheErr
  | fuelErr : CacheErr
deriving DecidableEq

/-- handleCache of src/cache.js, parametrized by the transform
collaborator `tf` and fuel-indexed: the source recurses into itself
with `os.tmpdir()` as directory, and the fuel (2 suffices, see claim
C9) bounds that recursion structurally. Returns the outcome, the
world after the filesystem effects, and the number of `transform`
invocations. -/
def handleCacheF (tf : String → JValue → Except String JValue) :
    Nat → String → Params → World → Except CacheErr JValue × World × Nat
  | 0, _, _, w => (.error .fuelErr, w, 0)
  | fuel + 1, directory, params, w =>
    match filename params.source params.cacheIdentifier (optionsEff params) with
    | .error e => (.error (.keyErr e), w, 0)
    | .ok fname =>
      match read w (pathJoin directory fname) params.cacheCompression with
      | some result => (.ok result, w, 0)
      | none =>
        if directory ∈ w.badDirs then
          if params.cacheDirectory.isNone && directory != tmpdir then
            handleCacheF tf fuel tmpdir params w
          else (.error .dirErr, w, 0)
        else
          match tf params.source (optionsEff params) with
          | .error e => (.error (.transformErr e), w, 1)
          | .ok result =>
            match write w (pathJoin directory fname) params.cacheCompression result with
            | some w2 => (.ok result, w2, 1)
            | none =>
              if params.cacheDirectory.isNone && directory != tmpdir then
                match handleCacheF tf fuel tmpdir params w with
                | (r, w2, n) => (r, w2, n + 1)
              else (.error .writeErr, w, 1)

/-- handleCache at the fuel that realizes the source exactly: the
recursion retries at most once (claim C9). -/
def handleCache (tf : String → JValue → Except String JValue)
    (directory : String) (params : Params) (w : World) :
    Except CacheErr JValue × World × Nat :=
  handleCacheF tf 2 directory params w

/-- Entry point (module.exports) of src/cache.js: resolve the base
directory — the explicit `cacheDirectory` when it is a string,
otherwise the lazily resolved process default, modelled as the
injected result of `find-cache-dir` with the tmpdir fallback — and
run handleCache there. -/
def cacheFn (tf : String → JValue → Except String JValue)
    (findCacheDirResult : Option String) (params : Params) (w : World) :
    Except CacheErr JValue × World × Nat :=
  let directory :=
    match params.cacheDirectory with
    | some d => d
    | none => findCacheDirResult.getD tmpdir
  handleCache tf directory params w

/-! ### Auxiliary definitions used by the statements and proofs -/

mutual

/-- Nesting depth of a JSON value, bounding the parser fuel it needs. -/
def jdepth : JValue → Nat
  | .arr xs => jdepthL xs + 1
  | .obj fs => jdepthF fs + 1
  | _ => 1

/-- Nesting depth of a list of array elements. -/
def jdepthL : List JValue → Nat
  | [] => 0
  | x :: xs => max (jdepth x) (jdepthL xs)

/-- Nesting depth of a list of object fields. -/
def jdepthF : List (String × JValue) → Nat
  | [] => 0
  | (_, v) :: fs => max (jdepth v) (jdepthF fs)

end

/-- Input that cannot extend a decimal literal to its left: empty, or
starting with a non-digit. -/
def noDigitHead : List Char → Bool
  | [] => true
  | c :: _ => !(isDigitC c)

/-- Condition under which a path prefix is inert for the greedy split:
no nonempty suffix of the prefix starts an occurrence of the marker in
front of the designated marker occurrence. Holds for every ordinary
absolute path prefix; it fails only when the prefix itself ends in a
partial or full marker. -/
def cleanPrefixC (p t : List Char) : Bool :=
  p.tails.all fun q => q.isEmpty || !(markerChars.isPrefixOf (q ++ markerChars ++ t))

/-- Two request/resolved path strings that differ only in the path
prefix standing before the dependency-directory marker: both decompose
as prefix ++ marker ++ tail with the same tail, each prefix inert in
the sense of cleanPrefixC. -/
def SameTail (r1 r2 : String) : Prop :=
  ∃ p1 p2 t : List Char,
    r1.data = p1 ++ markerChars ++ t ∧ r2.data = p2 ++ markerChars ++ t ∧
    cleanPrefixC p1 t = true ∧ cleanPrefixC p2 t = true

/-- A plugin or preset entry carrying a file with request and resolved
path strings. -/
def fileItem (req res : String) : JValue :=
  .obj [("file", .obj [("request", .jstr req), ("resolved", .jstr res)])]

/-- Options whose plugins and presets are lists of `fileItem` entries,
given as (request, resolved) string pairs. -/
def pathOpts (plugins presets : List (String × String)) : JValue :=
  .obj [("plugins", .arr (plugins.map fun pr => fileItem pr.1 pr.2)),
        ("presets", .arr (presets.map fun pr => fileItem pr.1 pr.2))]

/-- Field of a file object that updatePath can process: absent, falsy,
or a string. -/
def fieldOk (file : JValue) (key : String) : Bool :=
  match jGet file key with
  | none => true
  | some (.jstr _) => true
  | some v => !(jTruthy v)

/-- Plugin/preset entry that updatePath can process without throwing:
a non-null item carrying a non-null `file` property whose truthy
request/resolved values, if any, are strings. -/
def itemOk (item : JValue) : Bool :=
  match item with
  | .jnull => false
  | _ =>
    match jGet item "file" with
    | none => false
    | some .jnull => false
    | some file => fieldOk file "request" && fieldOk file "resolved"

/-- Array-valued plugins or presets field whose entries updatePath can
all process. -/
def arrayOk : Option JValue → Bool
  | some (.arr items) => items.all itemOk
  | _ => true

/-- Options on which key derivation cannot throw: every entry of an
array-valued plugins or presets field is processable. -/
def optsOk (o : JValue) : Bool :=
  arrayOk (jGet o "plugins") && arrayOk (jGet o "presets")

/-- Cache entry filename of a request, used to build concrete worlds
in witnesses ("" when key derivation throws, unused). -/
def entryName (src id : String) (o : JValue) : String :=
  match filename src id o with
  | .ok f => f
  | .error _ => ""

/-- Decidable equality of key-derivation results, used to compute
concrete key comparisons. -/
instance : DecidableEq (Except String String) := fun a b =>
  match a, b with
  | .ok x, .ok y =>
    if h : x = y then .isTrue (by rw [h]) else .isFalse (fun he => h (by cases he; rfl))
  | .error x, .error y =>
    if h : x = y then .isTrue (by rw [h]) else .isFalse (fun he => h (by cases he; rfl))
  | .ok _, .error _ => .isFalse (fun he => Except.noConfusion he)
  | .error _, .ok _ => .isFalse (fun he => Except.noConfusion he)

/-! ## Round trip of the JSON codec -/

theorem parseStrBody_escStr (s rest : List Char) :
    parseStrBody (escStr s ++ '"' :: rest) = some (s, rest) := by
  induction s with
  | nil => rfl
  | cons c cs ih =>
    by_cases h : c = '"' ∨ c = '\\'
    · have he : escChar c = ['\\', c] := by
        rcases h with h | h <;> simp [escChar, h]
      simp [escStr, he, parseStrBody, ih]
    · push_neg at h
      have he : escChar c = [c] := by simp [escChar, h.1, h.2]
      rw [escStr, he, List.cons_append, List.nil_append, parseStrBody.eq_def]
      split
      · simp_all
      · simp_all
      · simp_all
      · simp_all [ih]

theorem digitChar_toNat (d : Nat) (h : d < 10) : (digitChar d).toNat = 48 + d := by
  interval_cases d <;> rfl

theorem isDigitC_digitChar (d : Nat) (h : d < 10) : isDigitC (digitChar d) = true := by
  interval_cases d <;> rfl

theorem parseDigits_stop (rest : List Char) (acc : Nat) (h : noDigitHead rest = true) :
    parseDigits rest acc = (acc, rest) := by
  cases rest with
  | nil => rfl
  | cons c r =>
    simp [noDigitHead] at h
    simp [parseDigits, h]

theorem parseDigits_append (ds : List Char) (hds : ∀ c ∈ ds, isDigitC c = true)
    (rest : List Char) (hrest : noDigitHead rest = true) (acc : Nat) :
    parseDigits (ds ++ rest) acc =
      (ds.foldl (fun a c => a * 10 + (c.toNat - 48)) acc, rest) := by
  induction ds generalizing acc with
  | nil => simpa using parseDigits_stop rest acc hrest
  | cons c cs ih =>
    have hc : isDigitC c = true := hds c (by simp)
    simp only [List.cons_append, parseDigits, hc, if_true, List.foldl_cons]
    exact ih (fun x hx => hds x (by simp [hx])) _

theorem natCharsF_digits (f n : Nat) : ∀ c ∈ natCharsF f n, isDigitC c = true := by
  induction f generalizing n with
  | zero => simp [natCharsF]
  | succ f ih =>
    intro c hc
    rw [natCharsF] at hc
    by_cases h : n < 10
    · simp [h] at hc
      subst hc
      exact isDigitC_digitChar _ (by omega)
    · simp [h] at hc
      rcases hc with hc | hc
      · exact ih _ _ hc
      · subst hc
        exact isDigitC_digitChar _ (by omega)

theorem natCharsF_foldl (f n : Nat) (hf : n < f) (acc : Nat) :
    (natCharsF f n).foldl (fun a c => a * 10 + (c.toNat - 48)) acc =
      acc * 10 ^ (natCharsF f n).length + n := by
  induction f generalizing n acc with
  | zero => omega
  | succ f ih =>
    rw [natCharsF]
    by_cases h : n < 10
    · simp [h, digitChar_toNat n h]
    · simp only [h, if_false]
      rw [List.foldl_append, ih (n / 10) (by omega) acc]
      simp [digitChar_toNat (n % 10) (by omega)]
      rw [pow_succ]
      have : 10 * (n / 10) + n % 10 = n := Nat.div_add_mod n 10
      ring_nf
      omega

theorem natCharsF_ne_nil (f n : Nat) (hf : 0 < f) : natCharsF f n ≠ [] := by
  cases f with
  | zero => omega
  | succ f =>
    rw [natCharsF]
    by_cases h : n < 10 <;> simp [h]

theorem natChars_cons (m : Nat) : ∃ c ds, natChars m = c :: ds ∧ isDigitC c = true := by
  have hne := natCharsF_ne_nil (m + 1) m (by omega)
  rw [natChars]
  cases h : natCharsF (m + 1) m with
  | nil => exact absurd h hne
  | cons c ds =>
    exact ⟨c, ds, rfl, natCharsF_digits (m + 1) m c (by rw [h]; simp)⟩

theorem parseDigits_natChars_tail (m : Nat) (c : Char) (ds : List Char)
    (h : natChars m = c :: ds) (rest : List Char) (hrest : noDigitHead rest = true) :
    parseDigits (ds ++ rest) (c.toNat - 48) = (m, rest) := by
  have hdig : ∀ x ∈ ds, isDigitC x = true := by
    intro x hx
    exact natCharsF_digits (m + 1) m x (by rw [← natChars, h]; simp [hx])
  rw [parseDigits_append ds hdig rest hrest]
  have hfold := natCharsF_foldl (m + 1) m (by omega) 0
  rw [← natChars, h] at hfold
  simp only [List.foldl_cons, Nat.zero_mul, Nat.zero_add] at hfold
  rw [hfold]

theorem jdepth_pos (v : JValue) : 0 < jdepth v := by
  cases v <;> simp [jdepth]

theorem jdepthL_mem {x : JValue} {xs : List JValue} (h : x ∈ xs) : jdepth x ≤ jdepthL xs := by
  induction xs with
  | nil => cases h
  | cons y ys ih =>
    rw [jdepthL]
    rcases List.mem_cons.1 h with rfl | h
    · exact Nat.le_max_left _ _
    · exact le_trans (ih h) (Nat.le_max_right _ _)

theorem jdepthF_mem {k : String} {v : JValue} {fs : List (String × JValue)}
    (h : (k, v) ∈ fs) : jdepth v ≤ jdepthF fs := by
  induction fs with
  | nil => cases h
  | cons f gs ih =>
    obtain ⟨k1, v1⟩ := f
    rw [jdepthF]
    rcases List.mem_cons.1 h with he | h
    · obtain ⟨rfl, rfl⟩ := Prod.mk.injEq .. ▸ he
      exact Nat.le_max_left _ _
    · exact le_trans (ih h) (Nat.le_max_right _ _)

theorem strV_cons (v : JValue) :
    ∃ c r, strV v = c :: r ∧
      (c = 'n' ∨ c = 't' ∨ c = 'f' ∨ c = '"' ∨ c = '-' ∨ isDigitC c = true ∨ c = '[' ∨ c = '{') := by
  cases v with
  | jnull => exact ⟨'n', _, rfl, by simp⟩
  | jbool b =>
    cases b
    · exact ⟨'f', _, rfl, by simp⟩
    · exact ⟨'t', _, rfl, by simp⟩
  | jnum i =>
    rw [strV, intChars]
    by_cases h : i < 0
    · exact ⟨'-', natChars i.natAbs, by simp [h], by simp⟩
    · obtain ⟨c, ds, hc, hdig⟩ := natChars_cons i.toNat
      exact ⟨c, ds, by simp [h, hc], by tauto⟩
  | jstr s => exact ⟨'"', _, rfl, by simp⟩
  | arr xs => exact ⟨'[', _, rfl, by simp⟩
  | obj fs => exact ⟨'{', _, rfl, by simp⟩

theorem isDigitC_ne (c : Char) (h : isDigitC c = true) :
    c ≠ 'n' ∧ c ≠ 't' ∧ c ≠ 'f' ∧ c ≠ '"' ∧ c ≠ '-' ∧ c ≠ '[' ∧ c ≠ '{' ∧
      c ≠ ']' ∧ c ≠ '}' ∧ c ≠ ',' := by
  refine ⟨?_, ?_, ?_, ?_, ?_, ?_, ?_, ?_, ?_, ?_⟩ <;>
    (rintro rfl; exact absurd h (by decide))

theorem strV_ne_nil (v : JValue) : strV v ≠ [] := by
  obtain ⟨c, r, h, _⟩ := strV_cons v
  simp [h]

theorem strL_length (xs : List JValue) : xs.length ≤ (strL xs).length := by
  induction xs with
  | nil => simp
  | cons x t ih =>
    have h1 : 1 ≤ (strV x).length := by
      have := strV_ne_nil x
      cases hh : strV x <;> simp_all
    cases t with
    | nil => simpa using h1
    | cons y t2 =>
      rw [strL]
      simp only [List.length_cons, List.length_append] at ih ⊢
      omega

theorem strF_length (fs : List (String × JValue)) : fs.length ≤ (strF fs).length := by
  induction fs with
  | nil => simp
  | cons kv t ih =>
    obtain ⟨k, v⟩ := kv
    cases t with
    | nil => simp [strF]
    | cons f t2 =>
      rw [strF]
      simp only [List.length_cons, List.length_append] at ih ⊢
      omega

theorem parseElems_strL (pv : List Char → Option (JValue × List Char)) (xs : List JValue)
    (hxs : xs ≠ [])
    (hpv : ∀ x ∈ xs, ∀ rest, noDigitHead rest = true → pv (strV x ++ rest) = some (x, rest))
    (K : Nat) (hK : xs.length ≤ K) (rest : List Char) :
    parseElems pv K (strL xs ++ ']' :: rest) = some (xs, rest) := by
  induction xs generalizing K with
  | nil => exact absurd rfl hxs
  | cons x t ih =>
    obtain ⟨K, rfl⟩ : ∃ K2, K = K2 + 1 := ⟨K - 1, by simp at hK; omega⟩
    cases t with
    | nil =>
      rw [strL, parseElems, hpv x (by simp) (']' :: rest) (by rfl)]
      rfl
    | cons y t2 =>
      rw [strL, List.append_assoc, List.cons_append,
        parseElems, hpv x (by simp) _ (by rfl)]
      simp only [ih (by simp) (fun z hz => hpv z (by simp [hz])) K (by simp at hK ⊢; omega)]

theorem parseFields_strF (pv : List Char → Option (JValue × List Char))
    (fs : List (String × JValue)) (hfs : fs ≠ [])
    (hpv : ∀ kv ∈ fs, ∀ rest, noDigitHead rest = true → pv (strV kv.2 ++ rest) = some (kv.2, rest))
    (K : Nat) (hK : fs.length ≤ K) (rest : List Char) :
    parseFields pv K (strF fs ++ '}' :: rest) = some (fs, rest) := by
  induction fs generalizing K with
  | nil => exact absurd rfl hfs
  | cons kv t ih =>
    obtain ⟨k, v⟩ := kv
    obtain ⟨K, rfl⟩ : ∃ K2, K = K2 + 1 := ⟨K - 1, by simp at hK; omega⟩
    cases t with
    | nil =>
      rw [strF,
        show ('"' :: escStr k.data ++ '"' :: ':' :: strV v) ++ '}' :: rest
          = '"' :: (escStr k.data ++ '"' :: (':' :: (strV v ++ '}' :: rest))) by simp,
        parseFields, parseStrBody_escStr k.data]
      simp only [hpv (k, v) (by simp) ('}' :: rest) (by rfl)]
    | cons f t2 =>
      rw [strF,
        show ('"' :: escStr k.data ++ '"' :: ':' :: strV v ++ ',' :: strF (f :: t2)) ++ '}' :: rest
          = '"' :: (escStr k.data ++ '"' :: (':' :: (strV v ++ ',' :: (strF (f :: t2) ++ '}' :: rest)))) by simp,
        parseFields, parseStrBody_escStr k.data]
      simp only [hpv (k, v) (by simp) (',' :: (strF (f :: t2) ++ '}' :: rest)) (by rfl)]
      simp only [ih (by simp) (fun z hz => hpv z (by simp [hz])) K (by simp at hK ⊢; omega)]

theorem parseVal_digit (f : Nat) (c : Char) (r : List Char) (h : isDigitC c = true) :
    parseVal (f + 1) (c :: r) =
      some (.jnum ((parseDigits r (c.toNat - 48)).1 : Int), (parseDigits r (c.toNat - 48)).2) := by
  obtain ⟨h1, h2, h3, h4, h5, h6, h7, h8, h9, h10⟩ := isDigitC_ne c h
  rw [parseVal]
  split
  case isTrue => rfl
  case isFalse => simp_all
  all_goals (intros; simp_all)

theorem parseVal_neg (f : Nat) (c : Char) (r : List Char) (h : isDigitC c = true) :
    parseVal (f + 1) ('-' :: c :: r) =
      some (.jnum (-((parseDigits r (c.toNat - 48)).1 : Int)), (parseDigits r (c.toNat - 48)).2) := by
  rw [parseVal]
  split
  case isTrue => rfl
  case isFalse => simp_all

theorem parseVal_arrNE (f : Nat) (c : Char) (rr : List Char) (hc : c ≠ ']') :
    parseVal (f + 1) ('[' :: c :: rr) =
      (match parseElems (parseVal f) ((c :: rr).length + 1) (c :: rr) with
       | some (vs, rest) => some (.arr vs, rest)
       | none => none) := by
  simp [parseVal, hc]

theorem parseVal_objNE (f : Nat) (c : Char) (rr : List Char) (hc : c ≠ '}') :
    parseVal (f + 1) ('{' :: c :: rr) =
      (match parseFields (parseVal f) ((c :: rr).length + 1) (c :: rr) with
       | some (fs, rest) => some (.obj fs, rest)
       | none => none) := by
  simp [parseVal, hc]

theorem parseVal_strV : ∀ (f : Nat) (v : JValue) (rest : List Char), jdepth v ≤ f →
    noDigitHead rest = true → parseVal f (strV v ++ rest) = some (v, rest) := by
  intro f
  induction f with
  | zero =>
    intro v rest hd _
    exact absurd (lt_of_lt_of_le (jdepth_pos v) hd) (by simp)
  | succ f ih =>
    intro v rest hd hrest
    cases v with
    | jnull => simp [strV, parseVal]
    | jbool b => cases b <;> simp [strV, parseVal]
    | jstr s =>
      rw [strV, show ('"' :: escStr s.data ++ ['"']) ++ rest
            = '"' :: (escStr s.data ++ '"' :: rest) by simp]
      simp [parseVal, parseStrBody_escStr]
    | jnum i =>
      rw [strV, intChars]
      by_cases hneg : i < 0
      · obtain ⟨c, ds, hc, hdig⟩ := natChars_cons i.natAbs
        rw [if_pos hneg, hc,
          show ('-' :: c :: ds) ++ rest = '-' :: c :: (ds ++ rest) by simp,
          parseVal_neg f c (ds ++ rest) hdig,
          parseDigits_natChars_tail i.natAbs c ds hc rest hrest]
        simp only [Option.some.injEq, Prod.mk.injEq, JValue.jnum.injEq, and_true]
        omega
      · obtain ⟨c, ds, hc, hdig⟩ := natChars_cons i.toNat
        rw [if_neg hneg, hc,
          show (c :: ds) ++ rest = c :: (ds ++ rest) by simp,
          parseVal_digit f c (ds ++ rest) hdig,
          parseDigits_natChars_tail i.toNat c ds hc rest hrest]
        simp only [Option.some.injEq, Prod.mk.injEq, JValue.jnum.injEq, and_true]
        omega
    | arr xs =>
      rw [strV]
      cases xs with
      | nil => simp [strL, parseVal]
      | cons x t =>
        have hdL : jdepthL (x :: t) ≤ f := by
          rw [jdepth] at hd; omega
        have hpv : ∀ z ∈ x :: t, ∀ rest2, noDigitHead rest2 = true →
            parseVal f (strV z ++ rest2) = some (z, rest2) := by
          intro z hz rest2 hr2
          exact ih z rest2 (le_trans (jdepthL_mem hz) hdL) hr2
        obtain ⟨c, rr, hsv, hstart⟩ := strV_cons x
        have hcne : c ≠ ']' := by
          rcases hstart with h | h | h | h | h | h | h | h
          all_goals first
            | (subst h; decide)
            | (exact (isDigitC_ne c h).2.2.2.2.2.2.2.1)
        obtain ⟨tl, htl⟩ : ∃ tl, strL (x :: t) ++ ']' :: rest = c :: tl := by
          cases t with
          | nil => exact ⟨rr ++ ']' :: rest, by simp [strL, hsv]⟩
          | cons y t2 => exact ⟨rr ++ ',' :: strL (y :: t2) ++ ']' :: rest, by simp [strL, hsv]⟩
        have hK : (x :: t).length ≤ (strL (x :: t) ++ ']' :: rest).length + 1 := by
          have h2 := strL_length (x :: t)
          simp only [List.length_append, List.length_cons] at h2 ⊢
          omega
        rw [show ('[' :: strL (x :: t) ++ [']']) ++ rest
              = '[' :: (strL (x :: t) ++ ']' :: rest) by simp,
          htl, parseVal_arrNE f c tl hcne, ← htl,
          parseElems_strL (parseVal f) (x :: t) (by simp) hpv _ hK rest]
    | obj fs =>
      rw [strV]
      cases fs with
      | nil => simp [strF, parseVal]
      | cons kv t =>
        have hdF : jdepthF (kv :: t) ≤ f := by
          rw [jdepth] at hd; omega
        have hpv : ∀ z ∈ kv :: t, ∀ rest2, noDigitHead rest2 = true →
            parseVal f (strV z.2 ++ rest2) = some (z.2, rest2) := by
          intro z hz rest2 hr2
          obtain ⟨zk, zv⟩ := z
          exact ih zv rest2 (le_trans (jdepthF_mem hz) hdF) hr2
        obtain ⟨tl, htl⟩ : ∃ tl, strF (kv :: t) ++ '}' :: rest = '"' :: tl := by
          obtain ⟨k, v⟩ := kv
          cases t with
          | nil => exact ⟨escStr k.data ++ '"' :: ':' :: strV v ++ '}' :: rest, by simp [strF]⟩
          | cons f2 t2 =>
            exact ⟨escStr k.data ++ '"' :: ':' :: strV v ++ ',' :: strF (f2 :: t2) ++ '}' :: rest,
              by simp [strF]⟩
        have hK : (kv :: t).length ≤ (strF (kv :: t) ++ '}' :: rest).length + 1 := by
          have h2 := strF_length (kv :: t)
          simp only [List.length_append, List.length_cons] at h2 ⊢
          omega
        rw [show ('{' :: strF (kv :: t) ++ ['}']) ++ rest
              = '{' :: (strF (kv :: t) ++ '}' :: rest) by simp,
          htl, parseVal_objNE f '"' tl (by decide), ← htl,
          parseFields_strF (parseVal f) (kv :: t) (by simp) hpv _ hK rest]

mutual

theorem jdepth_le_len : ∀ v : JValue, jdepth v ≤ (strV v).length
  | .jnull => by simp [jdepth, strV]
  | .jbool b => by cases b <;> simp [jdepth, strV]
  | .jnum i => by
    obtain ⟨c, r, hc, _⟩ := strV_cons (.jnum i)
    simp [jdepth, hc]
  | .jstr s => by simp [jdepth, strV]
  | .arr xs => by
    have h := jdepthL_le_len xs
    rw [jdepth, strV]
    simp only [List.length_cons, List.length_append]
    omega
  | .obj fs => by
    have h := jdepthF_le_len fs
    rw [jdepth, strV]
    simp only [List.length_cons, List.length_append]
    omega

theorem jdepthL_le_len : ∀ xs : List JValue, jdepthL xs ≤ (strL xs).length + 1
  | [] => by simp [jdepthL]
  | [x] => by
    have h := jdepth_le_len x
    rw [jdepthL, jdepthL, strL]
    omega
  | x :: y :: t => by
    have h1 := jdepth_le_len x
    have h2 := jdepthL_le_len (y :: t)
    rw [jdepthL, strL]
    simp only [List.length_append, List.length_cons] at h2 ⊢
    omega

theorem jdepthF_le_len : ∀ fs : List (String × JValue), jdepthF fs ≤ (strF fs).length + 1
  | [] => by simp [jdepthF]
  | [(k, v)] => by
    have h := jdepth_le_len v
    rw [jdepthF, jdepthF, strF]
    simp only [List.length_append, List.length_cons]
    omega
  | (k, v) :: f :: t => by
    have h1 := jdepth_le_len v
    have h2 := jdepthF_le_len (f :: t)
    rw [jdepthF, strF]
    simp only [List.length_append, List.length_cons] at h2 ⊢
    omega

end

/-- Round trip of the JSON codec model: parse inverts stringify. -/
theorem parseJson_stringify (v : JValue) : parseJson (stringifyJson v) = some v := by
  rw [stringifyJson, parseJson]
  have h := parseVal_strV ((strV v).length + 1) v [] (by
    have := jdepth_le_len v
    omega) (by rfl)
  simp only [List.append_nil] at h
  rw [h]

/-! ## The greedy marker split -/

theorem isPrefixOf_append_self (l t : List Char) : l.isPrefixOf (l ++ t) = true := by
  rw [ List.isPrefixOf_iff_prefix]
  exact List.prefix_append l t

theorem splitGo_ne_nil (sep : List Char) (f : Nat) (s acc : List Char) :
    splitGo sep f s acc ≠ [] := by
  induction f generalizing s acc with
  | zero => simp [splitGo]
  | succ f ih =>
    rw [splitGo.eq_def]
    by_cases h : sep.isPrefixOf s
    · simp [h]
    · cases s with
      | nil => simp [h]
      | cons c r => simpa [h] using ih r (c :: acc)

theorem splitGo_boundary (sep : List Char) (f : Nat) (t acc : List Char) :
    splitGo sep (f + 1) (sep ++ t) acc = acc.reverse :: splitGo sep f t [] := by
  rw [splitGo.eq_def]
  simp only [if_pos (isPrefixOf_append_self sep t), List.drop_left]

theorem splitGo_skip (sep : List Char) : ∀ (p : List Char) (f : Nat) (rest acc : List Char),
    (∀ q : List Char, q <:+ p → q ≠ [] → ¬ (sep.isPrefixOf (q ++ rest) = true)) →
    splitGo sep (f + p.length) (p ++ rest) acc = splitGo sep f rest (p.reverse ++ acc) := by
  intro p
  induction p with
  | nil =>
    intro f rest acc _
    simp
  | cons c p ih =>
    intro f rest acc h
    have hnp : ¬ (sep.isPrefixOf (c :: (p ++ rest)) = true) := by
      have h2 := h (c :: p) (List.suffix_refl _) (by simp)
      simpa [List.cons_append] using h2
    rw [show f + (c :: p).length = (f + p.length) + 1 by simp +arith, List.cons_append,
      splitGo.eq_def]
    simp only [if_neg hnp]
    exact (ih f rest (c :: acc)
      (fun q hq hne => h q (hq.trans (List.suffix_cons c p)) hne)).trans (by simp)

theorem lastSegment_clean (p t : List Char) (hp : cleanPrefixC p t = true) :
    lastSegment "/node_modules/" ⟨p ++ markerChars ++ t⟩ =
      lastSegment "/node_modules/" ⟨markerChars ++ t⟩ := by
  have hcp : ∀ q : List Char, q <:+ p → q ≠ [] →
      ¬ (markerChars.isPrefixOf (q ++ (markerChars ++ t)) = true) := by
    intro q hq hne
    have hall := (List.all_eq_true.1 hp) q ((List.mem_tails q p).2 hq)
    simp only [Bool.or_eq_true] at hall
    rcases hall with h | h
    · exact absurd (List.isEmpty_iff.1 h) hne
    · simp_all [ List.isPrefixOf_iff_prefix, List.append_assoc]
  have hsep : ("/node_modules/" : String).data = markerChars := rfl
  rw [lastSegment, lastSegment, jsSplit, jsSplit, hsep]
  have hL : (⟨p ++ markerChars ++ t⟩ : String).data = p ++ (markerChars ++ t) := by
    simp [List.append_assoc]
  have hR : (⟨markerChars ++ t⟩ : String).data = markerChars ++ t := rfl
  rw [hL, hR]
  have hlen : (p ++ (markerChars ++ t)).length + 1
      = ((markerChars ++ t).length + 1) + p.length := by
    simp +arith
  rw [hlen, splitGo_skip markerChars p ((markerChars ++ t).length + 1) (markerChars ++ t) [] hcp]
  have hlen2 : (markerChars ++ t).length + 1 = (t.length + markerChars.length) + 1 := by
    simp +arith
  rw [hlen2, splitGo_boundary, splitGo_boundary]
  have htail := splitGo_ne_nil markerChars (t.length + markerChars.length) t []
  cases hsg : splitGo markerChars (t.length + markerChars.length) t [] with
  | nil => exact absurd hsg htail
  | cons seg segs =>
    simp [List.getLastD_cons]

/-! ## updatePath and normalizeOptions -/

theorem updatePath_fileItem (req res : String) (h1 : req ≠ "") (h2 : res ≠ "") :
    updatePath (fileItem req res) =
      .ok (fileItem (lastSegment "/node_modules/" req) (lastSegment "/node_modules/" res)) := by
  simp [updatePath, fileItem, jGet, jGet.lookupField, updateField, jTruthy, h1, h2,
    jSet, jSet.setField]

theorem mapM_updatePath_fileItems (ps : List (String × String))
    (h : ∀ pr ∈ ps, pr.1 ≠ "" ∧ pr.2 ≠ "") :
    (ps.map fun pr => fileItem pr.1 pr.2).mapM updatePath =
      .ok (ps.map fun pr =>
        fileItem (lastSegment "/node_modules/" pr.1) (lastSegment "/node_modules/" pr.2)) := by
  induction ps with
  | nil => rfl
  | cons pr t ih =>
    obtain ⟨hp1, hp2⟩ := h pr (by simp)
    simp only [List.map_cons, List.mapM_cons, updatePath_fileItem pr.1 pr.2 hp1 hp2,
      ih (fun x hx => h x (by simp [hx]))]
    rfl

theorem normalizeOptions_pathOpts (ps qs : List (String × String))
    (h : ∀ pr ∈ ps ++ qs, pr.1 ≠ "" ∧ pr.2 ≠ "") :
    normalizeOptions (pathOpts ps qs) =
      .ok (pathOpts
        (ps.map fun pr => (lastSegment "/node_modules/" pr.1, lastSegment "/node_modules/" pr.2))
        (qs.map fun pr => (lastSegment "/node_modules/" pr.1, lastSegment "/node_modules/" pr.2))) := by
  have hps : ∀ pr ∈ ps, pr.1 ≠ "" ∧ pr.2 ≠ "" := fun pr hp => h pr (by simp [hp])
  have hqs : ∀ pr ∈ qs, pr.1 ≠ "" ∧ pr.2 ≠ "" := fun pr hq => h pr (by simp [hq])
  have hgp : jGet (pathOpts ps qs) "plugins"
      = some (.arr (ps.map fun pr => fileItem pr.1 pr.2)) := by
    simp [pathOpts, jGet, jGet.lookupField]
  have hgq : jGet (pathOpts ps qs) "presets"
      = some (.arr (qs.map fun pr => fileItem pr.1 pr.2)) := by
    simp [pathOpts, jGet, jGet.lookupField]
  have hma1 : normalizeOptions.mapArray (some (.arr (ps.map fun pr => fileItem pr.1 pr.2)))
      = .ok (some (ps.map fun pr =>
          fileItem (lastSegment "/node_modules/" pr.1) (lastSegment "/node_modules/" pr.2))) := by
    rw [normalizeOptions.mapArray, mapM_updatePath_fileItems ps hps]
  have hma2 : normalizeOptions.mapArray (some (.arr (qs.map fun pr => fileItem pr.1 pr.2)))
      = .ok (some (qs.map fun pr =>
          fileItem (lastSegment "/node_modules/" pr.1) (lastSegment "/node_modules/" pr.2))) := by
    rw [normalizeOptions.mapArray, mapM_updatePath_fileItems qs hqs]
  rw [normalizeOptions, parseJson_stringify (pathOpts ps qs)]
  simp only [hgp, hgq, hma1, hma2]
  simp [normalizeOptions.applySet, pathOpts, jSet, jSet.setField]

theorem sameTail_facts {r1 r2 : String} (h : SameTail r1 r2) :
    r1 ≠ "" ∧ r2 ≠ "" ∧
      lastSegment "/node_modules/" r1 = lastSegment "/node_modules/" r2 := by
  obtain ⟨p1, p2, t, h1, h2, hc1, hc2⟩ := h
  have e1 : r1 = ⟨p1 ++ markerChars ++ t⟩ := by
    cases r1 with
    | mk d1 => simp_all
  have e2 : r2 = ⟨p2 ++ markerChars ++ t⟩ := by
    cases r2 with
    | mk d2 => simp_all
  subst e1
  subst e2
  refine ⟨?_, ?_, ?_⟩
  · intro he
    have hd := congrArg String.data he
    simp [markerChars] at hd
  · intro he
    have hd := congrArg String.data he
    simp [markerChars] at hd
  · rw [lastSegment_clean p1 t hc1, lastSegment_clean p2 t hc2]

theorem forall2_sameTail_pairs {l1 l2 : List (String × String)}
    (h : List.Forall₂ (fun a b => SameTail a.1 b.1 ∧ SameTail a.2 b.2) l1 l2) :
    (∀ pr ∈ l1, pr.1 ≠ "" ∧ pr.2 ≠ "") ∧ (∀ pr ∈ l2, pr.1 ≠ "" ∧ pr.2 ≠ "") ∧
      (l1.map fun pr =>
        (lastSegment "/node_modules/" pr.1, lastSegment "/node_modules/" pr.2))
      = (l2.map fun pr =>
        (lastSegment "/node_modules/" pr.1, lastSegment "/node_modules/" pr.2)) := by
  induction h with
  | nil => exact ⟨by simp, by simp, rfl⟩
  | cons hab htail ih =>
    obtain ⟨hst1, hst2⟩ := hab
    obtain ⟨f1a, f2a, e1⟩ := sameTail_facts hst1
    obtain ⟨f1b, f2b, e2⟩ := sameTail_facts hst2
    obtain ⟨ih1, ih2, ih3⟩ := ih
    refine ⟨?_, ?_, ?_⟩
    · intro pr hpr
      rcases List.mem_cons.1 hpr with rfl | hpr
      · exact ⟨f1a, f1b⟩
      · exact ih1 pr hpr
    · intro pr hpr
      rcases List.mem_cons.1 hpr with rfl | hpr
      · exact ⟨f2a, f2b⟩
      · exact ih2 pr hpr
    · simp [e1, e2, ih3]

/-! ## Success conditions of updatePath -/

theorem setField_lookup_self (fs : List (String × JValue)) (k : String) (x : JValue)
    (h : jGet.lookupField fs k = some x) : jSet.setField fs k x = fs := by
  induction fs with
  | nil => simp [jGet.lookupField] at h
  | cons kv t ih =>
    obtain ⟨k1, v1⟩ := kv
    by_cases he : k1 = k
    · subst he
      simp [jGet.lookupField] at h
      simp [jSet.setField, h]
    · simp [jGet.lookupField, he] at h
      simp [jSet.setField, he, ih h]

theorem jSet_get_self (v : JValue) (k : String) (x : JValue) (h : jGet v k = some x) :
    jSet v k x = v := by
  cases v <;> simp_all [jGet, jSet, setField_lookup_self]

theorem updateField_ok (g file : JValue) (key : String) (h : fieldOk file key = true) :
    ∃ f2, updateField g key (jGet file key) = .ok f2 := by
  cases hg : jGet file key with
  | none => exact ⟨g, rfl⟩
  | some v =>
    cases v with
    | jstr s =>
      by_cases ht : jTruthy (.jstr s) = true
      · exact ⟨jSet g key (.jstr (lastSegment "/node_modules/" s)),
          by simp [updateField, hg, ht]⟩
      · exact ⟨g, by simp [updateField, hg, ht]⟩
    | jnull => exact ⟨g, by simp [updateField, hg, jTruthy]⟩
    | jbool b =>
      rw [fieldOk, hg] at h
      simp only [Bool.not_eq_true'] at h
      exact ⟨g, by simp [updateField, hg, h]⟩
    | jnum n =>
      rw [fieldOk, hg] at h
      simp only [Bool.not_eq_true'] at h
      exact ⟨g, by simp [updateField, hg, h]⟩
    | arr xs =>
      rw [fieldOk, hg] at h
      simp only [Bool.not_eq_true'] at h
      exact ⟨g, by simp [updateField, hg, h]⟩
    | obj fs =>
      rw [fieldOk, hg] at h
      simp only [Bool.not_eq_true'] at h
      exact ⟨g, by simp [updateField, hg, h]⟩

theorem updatePath_ok_of_itemOk (item : JValue) (h : itemOk item = true) :
    ∃ item2, updatePath item = .ok item2 := by
  cases item with
  | jnull => simp [itemOk] at h
  | jbool b => simp [itemOk, jGet] at h
  | jnum n => simp [itemOk, jGet] at h
  | jstr s => simp [itemOk, jGet] at h
  | arr xs => simp [itemOk, jGet] at h
  | obj fs =>
    cases hg : jGet (.obj fs) "file" with
    | none => simp [itemOk, hg] at h
    | some file =>
      cases file with
      | jnull => simp [itemOk, hg] at h
      | jbool b =>
        simp only [itemOk, hg, Bool.and_eq_true] at h
        obtain ⟨f1, hf1⟩ := updateField_ok (.jbool b) (.jbool b) "request" h.1
        obtain ⟨f2, hf2⟩ := updateField_ok f1 (.jbool b) "resolved" h.2
        exact ⟨jSet (.obj fs) "file" f2, by simp only [updatePath, hg, hf1, hf2]⟩
      | jnum n =>
        simp only [itemOk, hg, Bool.and_eq_true] at h
        obtain ⟨f1, hf1⟩ := updateField_ok (.jnum n) (.jnum n) "request" h.1
        obtain ⟨f2, hf2⟩ := updateField_ok f1 (.jnum n) "resolved" h.2
        exact ⟨jSet (.obj fs) "file" f2, by simp only [updatePath, hg, hf1, hf2]⟩
      | jstr s =>
        simp only [itemOk, hg, Bool.and_eq_true] at h
        obtain ⟨f1, hf1⟩ := updateField_ok (.jstr s) (.jstr s) "request" h.1
        obtain ⟨f2, hf2⟩ := updateField_ok f1 (.jstr s) "resolved" h.2
        exact ⟨jSet (.obj fs) "file" f2, by simp only [updatePath, hg, hf1, hf2]⟩
      | arr xs =>
        simp only [itemOk, hg, Bool.and_eq_true] at h
        obtain ⟨f1, hf1⟩ := updateField_ok (.arr xs) (.arr xs) "request" h.1
        obtain ⟨f2, hf2⟩ := updateField_ok f1 (.arr xs) "resolved" h.2
        exact ⟨jSet (.obj fs) "file" f2, by simp only [updatePath, hg, hf1, hf2]⟩
      | obj gs =>
        simp only [itemOk, hg, Bool.and_eq_true] at h
        obtain ⟨f1, hf1⟩ := updateField_ok (.obj gs) (.obj gs) "request" h.1
        obtain ⟨f2, hf2⟩ := updateField_ok f1 (.obj gs) "resolved" h.2
        exact ⟨jSet (.obj fs) "file" f2, by simp only [updatePath, hg, hf1, hf2]⟩

theorem mapM_updatePath_ok (l : List JValue) (h : ∀ x ∈ l, itemOk x = true) :
    ∃ l2, l.mapM updatePath = .ok l2 := by
  induction l with
  | nil => exact ⟨[], rfl⟩
  | cons x t ih =>
    obtain ⟨x2, hx⟩ := updatePath_ok_of_itemOk x (h x (by simp))
    obtain ⟨t2, ht⟩ := ih (fun z hz => h z (by simp [hz]))
    refine ⟨x2 :: t2, ?_⟩
    rw [List.mapM_cons, hx, ht]
    rfl

theorem mapArray_ok (v : Option JValue) (h : arrayOk v = true) :
    ∃ r, normalizeOptions.mapArray v = .ok r := by
  cases v with
  | none => exact ⟨none, rfl⟩
  | some x =>
    cases x with
    | arr items =>
      rw [arrayOk] at h
      obtain ⟨l2, hl⟩ := mapM_updatePath_ok items (List.all_eq_true.1 h)
      exact ⟨some l2, by rw [normalizeOptions.mapArray, hl]⟩
    | jnull => exact ⟨none, rfl⟩
    | jbool b => exact ⟨none, rfl⟩
    | jnum n => exact ⟨none, rfl⟩
    | jstr s => exact ⟨none, rfl⟩
    | obj fs => exact ⟨none, rfl⟩

theorem filename_ok_of_optsOk (src id : String) (o : JValue) (h : optsOk o = true) :
    ∃ k, filename src id o = .ok k := by
  rw [optsOk, Bool.and_eq_true] at h
  obtain ⟨h1, h2⟩ := h
  obtain ⟨r1, hr1⟩ := mapArray_ok _ h1
  obtain ⟨r2, hr2⟩ := mapArray_ok _ h2
  have hn : normalizeOptions o
      = .ok (normalizeOptions.applySet (normalizeOptions.applySet o "plugins" r1) "presets" r2) := by
    rw [normalizeOptions, parseJson_stringify o]
    simp only [hr1, hr2]
  exact ⟨_, by rw [filename, hn]⟩

/-! ## Unfolding lemmas of handleCache -/

theorem fallbackCond (p : Params) (d : String) :
    ((p.cacheDirectory.isNone && (d != tmpdir)) = true) ↔
      (p.cacheDirectory = none ∧ d ≠ tmpdir) := by
  simp [Option.isNone_iff_eq_none]

theorem handleCacheF_tmpdir (tf : String → JValue → Except String JValue)
    (f : Nat) (p : Params) (w : World) :
    handleCacheF tf (f + 1) tmpdir p w = handleCacheF tf 1 tmpdir p w := by
  show handleCacheF tf (f + 1) tmpdir p w = handleCacheF tf (0 + 1) tmpdir p w
  rw [handleCacheF, handleCacheF]
  cases hfn : filename p.source p.cacheIdentifier (optionsEff p) with
  | error e => rfl
  | ok fname =>
    simp only [show (p.cacheDirectory.isNone && (tmpdir != tmpdir)) = false by simp,
      Bool.false_eq_true, if_false]

theorem optionCases {α : Type} (o : Option α) : o = none ∨ ∃ a, o = some a := by
  cases o <;> simp

theorem exceptCases {α β : Type} (e : Except α β) :
    (∃ a, e = .error a) ∨ (∃ b, e = .ok b) := by
  cases e <;> simp

theorem handleCacheF_one_count (tf : String → JValue → Except String JValue)
    (d : String) (p : Params) (w : World) :
    (handleCacheF tf 1 d p w).2.2 ≤ 1 := by
  show (handleCacheF tf (0 + 1) d p w).2.2 ≤ 1
  rw [handleCacheF]
  rcases exceptCases (filename p.source p.cacheIdentifier (optionsEff p)) with
    ⟨e, hfn⟩ | ⟨fname, hfn⟩
  · simp [hfn]
  · simp only [hfn]
    rcases optionCases (read w (pathJoin d fname) p.cacheCompression) with hrd | ⟨v, hrd⟩
    · simp only [hrd]
      by_cases hd : d ∈ w.badDirs
      · simp only [if_pos hd]
        by_cases hfb : (p.cacheDirectory.isNone && (d != tmpdir)) = true
        · simp only [if_pos hfb]
          rw [show handleCacheF tf 0 tmpdir p w = (.error .fuelErr, w, 0) from rfl]
          simp
        · simp only [if_neg hfb]
          simp
      · simp only [if_neg hd]
        rcases exceptCases (tf p.source (optionsEff p)) with ⟨e, htf⟩ | ⟨result, htf⟩
        · simp [htf]
        · simp only [htf]
          rcases optionCases (write w (pathJoin d fname) p.cacheCompression result) with
            hwr | ⟨w2, hwr⟩
          · simp only [hwr]
            by_cases hfb : (p.cacheDirectory.isNone && (d != tmpdir)) = true
            · simp only [if_pos hfb]
              rw [show handleCacheF tf 0 tmpdir p w = (.error .fuelErr, w, 0) from rfl]
            · simp only [if_neg hfb]
              simp
          · simp [hwr]
    · simp [hrd]

/-! ## The claims -/

set_option maxRecDepth 10000

/-- C1: key derivation is deterministic. filename is a pure function
of the (source, identifier, options) triple, so two calls on the same
triple agree definitionally; beyond that, the key depends on the
options only through their normalization: any two requests whose
normalized triples coincide receive the same cache key. -/
theorem C1_key_determinism (src id : String) (o1 o2 : JValue)
    (h : normalizeOptions o1 = normalizeOptions o2) :
    filename src id o1 = filename src id o2 := by
  rw [filename, filename, h]

/-- Witness for C1: two options objects whose plugin request/resolved
paths differ in the machine-specific prefix before '/node_modules/'
have identical normalizations, hence identical cache keys. -/
theorem C1_key_determinism_witness :
    normalizeOptions (pathOpts [("/x/node_modules/p.js", "/x/node_modules/p.js")] [])
      = normalizeOptions (pathOpts [("/y/node_modules/p.js", "/y/node_modules/p.js")] [])
    ∧ filename "const a=1" "v1" (pathOpts [("/x/node_modules/p.js", "/x/node_modules/p.js")] [])
      = filename "const a=1" "v1" (pathOpts [("/y/node_modules/p.js", "/y/node_modules/p.js")] []) :=
  ⟨by rfl, C1_key_determinism "const a=1" "v1" _ _ (by rfl)⟩

/-- C2 counterexample: the claim "options differing only in the
absolute-path prefix before the '/node_modules/' marker yield
identical keys" fails as stated. The two request strings below both
have the form prefix ++ "/node_modules/" ++ "x" (prefixes
"/a/node_modules" and "/b"), yet the keys differ: the greedy
non-overlapping split of JavaScript String.split misses the marker
occurrence that straddles the first prefix and the marker, so the
first request normalizes to "node_modules/x" while the second
normalizes to "x". -/
theorem C2_normalization_invariance_counterexample :
    "/a/node_modules/node_modules/x" = "/a/node_modules" ++ "/node_modules/" ++ "x"
    ∧ "/b/node_modules/x" = "/b" ++ "/node_modules/" ++ "x"
    ∧ filename "s" "i"
        (pathOpts [("/a/node_modules/node_modules/x", "/a/node_modules/node_modules/x")] [])
      ≠ filename "s" "i" (pathOpts [("/b/node_modules/x", "/b/node_modules/x")] []) :=
  ⟨rfl, rfl, by decide⟩

/-- C2 amended: normalization invariance holds for prefixes that are
inert for the greedy split — when no nonempty suffix of the prefix
starts an occurrence of the marker before the designated one
(cleanPrefixC, satisfied by every ordinary absolute path prefix).
Plugins and presets whose request/resolved strings differ only in
such prefixes yield identical cache keys. -/
theorem C2_normalization_invariance_amended (src id : String)
    (ps1 ps2 qs1 qs2 : List (String × String))
    (hp : List.Forall₂ (fun a b => SameTail a.1 b.1 ∧ SameTail a.2 b.2) ps1 ps2)
    (hq : List.Forall₂ (fun a b => SameTail a.1 b.1 ∧ SameTail a.2 b.2) qs1 qs2) :
    filename src id (pathOpts ps1 qs1) = filename src id (pathOpts ps2 qs2) := by
  obtain ⟨hp1, hp2, hpm⟩ := forall2_sameTail_pairs hp
  obtain ⟨hq1, hq2, hqm⟩ := forall2_sameTail_pairs hq
  have h1 := normalizeOptions_pathOpts ps1 qs1 (by
    intro pr hpr
    rcases List.mem_append.1 hpr with hh | hh
    · exact hp1 pr hh
    · exact hq1 pr hh)
  have h2 := normalizeOptions_pathOpts ps2 qs2 (by
    intro pr hpr
    rcases List.mem_append.1 hpr with hh | hh
    · exact hp2 pr hh
    · exact hq2 pr hh)
  rw [filename, filename, h1, h2, hpm, hqm]

/-- Witness for the amended C2: request paths rooted at "/x" and
"/long/path" with the same dependency tail receive the same key. -/
theorem C2_normalization_invariance_amended_witness :
    SameTail "/x/node_modules/lib.js" "/long/path/node_modules/lib.js"
    ∧ filename "s" "i"
        (pathOpts [("/x/node_modules/lib.js", "/x/node_modules/lib.js")] [])
      = filename "s" "i"
        (pathOpts [("/long/path/node_modules/lib.js", "/long/path/node_modules/lib.js")] []) := by
  have hst : SameTail "/x/node_modules/lib.js" "/long/path/node_modules/lib.js" :=
    ⟨"/x".data, "/long/path".data, "lib.js".data, by decide, by decide, by decide, by decide⟩
  exact ⟨hst,
    C2_normalization_invariance_amended "s" "i" _ _ _ _
      (List.Forall₂.cons ⟨hst, hst⟩ List.Forall₂.nil) List.Forall₂.nil⟩

/-- C3: the hit path skips recomputation. When the entry file of the
derived key exists and decodes, handleCache returns the decoded stored
result, leaves the world untouched, and invokes the transform
collaborator zero times. -/
theorem C3_hit_path_skips_transform (tf : String → JValue → Except String JValue)
    (d : String) (p : Params) (w : World) (fname : String) (v : JValue)
    (hf : filename p.source p.cacheIdentifier (optionsEff p) = .ok fname)
    (hr : read w (pathJoin d fname) p.cacheCompression = some v) :
    handleCache tf d p w = (.ok v, w, 0) := by
  rw [handleCache]
  show handleCacheF tf (1 + 1) d p w = (.ok v, w, 0)
  rw [handleCacheF]
  simp only [hf, hr]

/-- Witness for C3: a world holding a valid entry for the request's
key produces a hit with zero transform invocations. -/
theorem C3_hit_path_skips_transform_witness :
    read ⟨[(pathJoin "/c" (entryName "src" "v1" (.obj [])), stringifyJson (.jstr "OUT"))], [], []⟩
        (pathJoin "/c" (entryName "src" "v1" (.obj []))) false = some (.jstr "OUT")
    ∧ handleCache (fun _ _ => .ok .jnull) "/c" ⟨"src", some (.obj []), "v1", none, false⟩
        ⟨[(pathJoin "/c" (entryName "src" "v1" (.obj [])), stringifyJson (.jstr "OUT"))], [], []⟩
      = (.ok (.jstr "OUT"),
          ⟨[(pathJoin "/c" (entryName "src" "v1" (.obj [])), stringifyJson (.jstr "OUT"))], [], []⟩,
          0) :=
  ⟨by rfl,
    C3_hit_path_skips_transform _ "/c" _ _ (entryName "src" "v1" (.obj [])) _ (by rfl) (by rfl)⟩

/-- C4: corrupt or absent entries degrade to a uniform miss. Whenever
the read step fails — missing file, gunzip failure, or a JSON parse
failure on garbage bytes — the operation proceeds: it invokes the
transform exactly once and, the directory being creatable and the
entry writable, returns the transform's result; no read failure is
ever surfaced (the caller-side catch swallows it). -/
theorem C4_corrupt_or_absent_is_miss (tf : String → JValue → Except String JValue)
    (d : String) (p : Params) (w : World) (fname : String) (r : JValue) (w2 : World)
    (hf : filename p.source p.cacheIdentifier (optionsEff p) = .ok fname)
    (hr : read w (pathJoin d fname) p.cacheCompression = none)
    (hd : d ∉ w.badDirs)
    (ht : tf p.source (optionsEff p) = .ok r)
    (hw : write w (pathJoin d fname) p.cacheCompression r = some w2) :
    handleCache tf d p w = (.ok r, w2, 1) := by
  rw [handleCache]
  show handleCacheF tf (1 + 1) d p w = (.ok r, w2, 1)
  rw [handleCacheF]
  simp only [hf, hr, if_neg hd, ht, hw]

/-- Witness for C4: an entry file holding garbage bytes is treated as
a miss — the transform runs and its result is returned. -/
theorem C4_corrupt_or_absent_is_miss_witness :
    read ⟨[(pathJoin "/c" (entryName "s" "i" (.obj [])), "garbage!!".data)], [], []⟩
        (pathJoin "/c" (entryName "s" "i" (.obj []))) false = none
    ∧ handleCache (fun _ _ => .ok (.jstr "R")) "/c" ⟨"s", some (.obj []), "i", none, false⟩
        ⟨[(pathJoin "/c" (entryName "s" "i" (.obj [])), "garbage!!".data)], [], []⟩
      = (.ok (.jstr "R"),
          putFileW ⟨[(pathJoin "/c" (entryName "s" "i" (.obj [])), "garbage!!".data)], [], []⟩
            (pathJoin "/c" (entryName "s" "i" (.obj [])) ++ "") (stringifyJson (.jstr "R")),
          1) :=
  ⟨by rfl,
    C4_corrupt_or_absent_is_miss _ "/c" _ _ (entryName "s" "i" (.obj [])) _ _
      (by rfl) (by rfl) (by simp) (by rfl) (by rfl)⟩

/-- C5: codec round trip. A successfully written entry reads back to
the value that was written, for compression off and on: JSON.parse
after the optional gunzip inverts JSON.stringify after the optional
gzip. -/
theorem C5_codec_roundtrip (w : World) (file : String) (compress : Bool) (r : JValue)
    (w2 : World) (hw : write w file compress r = some w2) :
    read w2 file compress = some r := by
  rw [write] at hw
  by_cases hb : (file ++ (if compress then ".gz" else "")) ∈ w.badWrites
  · rw [if_pos hb] at hw
    cases hw
  · rw [if_neg hb] at hw
    injection hw with hw2
    rw [← hw2, read]
    have hg : ∀ D, getFileW (putFileW w (file ++ (if compress then ".gz" else "")) D)
        (file ++ (if compress then ".gz" else "")) = some D := by
      intro D
      simp [getFileW, putFileW, getFileW.go]
    rw [hg]
    cases compress
    · simp [parseJson_stringify]
    · simp [gzipC, gunzipC, parseJson_stringify]

/-- Witness for C5 at a structured result value, for both compression
modes. -/
theorem C5_codec_roundtrip_witness :
    read ((write ⟨[], [], []⟩ "/c/k.json" true
        (.obj [("code", .jstr "x\"y"), ("n", .jnum (-7))])).getD ⟨[], [], []⟩)
      "/c/k.json" true = some (.obj [("code", .jstr "x\"y"), ("n", .jnum (-7))])
    ∧ read ((write ⟨[], [], []⟩ "/c/k.json" false
        (.obj [("code", .jstr "x\"y"), ("n", .jnum (-7))])).getD ⟨[], [], []⟩)
      "/c/k.json" false = some (.obj [("code", .jstr "x\"y"), ("n", .jnum (-7))]) :=
  ⟨C5_codec_roundtrip ⟨[], [], []⟩ "/c/k.json" true _ _ (by rfl),
    C5_codec_roundtrip ⟨[], [], []⟩ "/c/k.json" false _ _ (by rfl)⟩

/-- C6 counterexample: the claim that a storage failure never
prevents the computed result from being returned — including with a
pinned explicit cacheDirectory — fails on the code. With an explicit
cacheDirectory and an unwritable entry path, the transform succeeds
and is invoked exactly once, yet handleCache surfaces the write error
and the computed result is discarded. -/
theorem C6_storage_failure_counterexample :
    (handleCache (fun _ _ => .ok (.jstr "R")) "/pinned"
        ⟨"s", some (.obj []), "i", some "/pinned", false⟩
        ⟨[], [], [pathJoin "/pinned" (entryName "s" "i" (.obj []))]⟩).1
      = .error .writeErr
    ∧ (handleCache (fun _ _ => .ok (.jstr "R")) "/pinned"
        ⟨"s", some (.obj []), "i", some "/pinned", false⟩
        ⟨[], [], [pathJoin "/pinned" (entryName "s" "i" (.obj []))]⟩).2.2 = 1 :=
  ⟨by rfl, by rfl⟩

/-- C6 amended: a computed result survives a write failure only while
the fallback retry is available. When the entry write fails and the
fallback is unavailable — an explicit cacheDirectory was pinned, or
the directory already is the temporary directory — handleCache
surfaces the write error and the computed result is not returned,
although the transform ran exactly once. -/
theorem C6_storage_failure_amended (tf : String → JValue → Except String JValue)
    (d : String) (p : Params) (w : World) (fname : String) (r : JValue)
    (hf : filename p.source p.cacheIdentifier (optionsEff p) = .ok fname)
    (hr : read w (pathJoin d fname) p.cacheCompression = none)
    (hd : d ∉ w.badDirs)
    (ht : tf p.source (optionsEff p) = .ok r)
    (hw : write w (pathJoin d fname) p.cacheCompression r = none)
    (hfb : ¬(p.cacheDirectory = none ∧ d ≠ tmpdir)) :
    handleCache tf d p w = (.error .writeErr, w, 1) := by
  rw [handleCache]
  show handleCacheF tf (1 + 1) d p w = (.error .writeErr, w, 1)
  rw [handleCacheF]
  have hfb2 : (p.cacheDirectory.isNone && (d != tmpdir)) = false := by
    cases hbb : (p.cacheDirectory.isNone && (d != tmpdir)) with
    | false => rfl
    | true => exact absurd ((fallbackCond p d).1 hbb) hfb
  simp only [hf, hr, if_neg hd, ht, hw, hfb2, Bool.false_eq_true, if_false]

/-- Witness for the amended C6: a pinned directory with an unwritable
entry path surfaces the write error after one transform invocation. -/
theorem C6_storage_failure_amended_witness :
    handleCache (fun _ _ => .ok (.jstr "OUT")) "/pin"
        ⟨"src2", some (.obj []), "id2", some "/pin", false⟩
        ⟨[], [], [pathJoin "/pin" (entryName "src2" "id2" (.obj []))]⟩
      = (.error .writeErr,
          ⟨[], [], [pathJoin "/pin" (entryName "src2" "id2" (.obj []))]⟩, 1) :=
  C6_storage_failure_amended _ "/pin" _ _ (entryName "src2" "id2" (.obj [])) _
    (by rfl) (by rfl) (by simp) (by rfl) (by rfl) (by simp)

/-- C7 counterexample: the transform can run twice within a single
cache operation. With no pinned directory, an unwritable primary
entry path and a writable temporary directory, the write-failure
fallback re-runs the whole operation against tmpdir; the rerun misses
again and invokes the transform a second time, for a total of 2. -/
theorem C7_transform_once_counterexample :
    (handleCache (fun _ _ => .ok (.jstr "R")) "/proj"
        ⟨"s", some (.obj []), "i", none, false⟩
        ⟨[], [], [pathJoin "/proj" (entryName "s" "i" (.obj []))]⟩).2.2 = 2 := by rfl

/-- C7 amended: the transform collaborator is invoked at most twice
per cache operation — at most once on the primary attempt, and at
most once more when the write-failure fallback re-runs the operation
against the temporary directory, where no further fallback is
possible. -/
theorem C7_transform_at_most_twice (tf : String → JValue → Except String JValue)
    (d : String) (p : Params) (w : World) :
    (handleCache tf d p w).2.2 ≤ 2 := by
  rw [handleCache]
  show (handleCacheF tf (1 + 1) d p w).2.2 ≤ 2
  rw [handleCacheF]
  rcases exceptCases (filename p.source p.cacheIdentifier (optionsEff p)) with
    ⟨e, hfn⟩ | ⟨fname, hfn⟩
  · simp [hfn]
  · simp only [hfn]
    rcases optionCases (read w (pathJoin d fname) p.cacheCompression) with hrd | ⟨v, hrd⟩
    · simp only [hrd]
      by_cases hd : d ∈ w.badDirs
      · simp only [if_pos hd]
        by_cases hfb : (p.cacheDirectory.isNone && (d != tmpdir)) = true
        · simp only [if_pos hfb]
          exact le_trans (handleCacheF_one_count tf tmpdir p w) (by omega)
        · simp only [if_neg hfb]
          simp
      · simp only [if_neg hd]
        rcases exceptCases (tf p.source (optionsEff p)) with ⟨e, htf⟩ | ⟨result, htf⟩
        · simp [htf]
        · simp only [htf]
          rcases optionCases (write w (pathJoin d fname) p.cacheCompression result) with
            hwr | ⟨w2, hwr⟩
          · simp only [hwr]
            by_cases hfb : (p.cacheDirectory.isNone && (d != tmpdir)) = true
            · simp only [if_pos hfb]
              have h1 := handleCacheF_one_count tf tmpdir p w
              rcases hh : handleCacheF tf 1 tmpdir p w with ⟨r2, w3, n2⟩
              rw [hh] at h1
              simp only [hh]
              simp only [Nat.succ_le_succ_iff] at h1 ⊢
              omega
            · simp only [if_neg hfb]
              simp
          · simp [hwr]
    · simp [hrd]

/-- C8: the fallback decision rule. When directory creation fails,
the cache operation is retried against the system temporary directory
exactly when no explicit cacheDirectory string was supplied and the
directory in use is not already the temporary directory; otherwise
the creation failure surfaces to the caller as an error. -/
theorem C8_fallback_decision (tf : String → JValue → Except String JValue)
    (d : String) (p : Params) (w : World) (fname : String)
    (hf : filename p.source p.cacheIdentifier (optionsEff p) = .ok fname)
    (hr : read w (pathJoin d fname) p.cacheCompression = none)
    (hd : d ∈ w.badDirs) :
    handleCache tf d p w =
      if p.cacheDirectory = none ∧ d ≠ tmpdir then handleCacheF tf 1 tmpdir p w
      else (.error .dirErr, w, 0) := by
  rw [handleCache]
  show handleCacheF tf (1 + 1) d p w = _
  rw [handleCacheF]
  simp only [hf, hr, if_pos hd]
  by_cases hc : p.cacheDirectory = none ∧ d ≠ tmpdir
  · rw [if_pos ((fallbackCond p d).2 hc), if_pos hc]
  · rw [if_neg (fun hbb => hc ((fallbackCond p d).1 hbb)), if_neg hc]

/-- Witness for C8: an uncreatable project directory with no pinned
cacheDirectory takes the tmpdir retry branch. -/
theorem C8_fallback_decision_witness :
    ("/proj" ∈ (⟨[], ["/proj"], []⟩ : World).badDirs)
    ∧ handleCache (fun _ _ => .ok (.jstr "R")) "/proj"
        ⟨"s", some (.obj []), "i", none, false⟩ ⟨[], ["/proj"], []⟩
      = if (⟨"s", some (.obj []), "i", none, false⟩ : Params).cacheDirectory = none
            ∧ "/proj" ≠ tmpdir
        then handleCacheF (fun _ _ => .ok (.jstr "R")) 1 tmpdir
          ⟨"s", some (.obj []), "i", none, false⟩ ⟨[], ["/proj"], []⟩
        else (.error .dirErr, ⟨[], ["/proj"], []⟩, 0) :=
  ⟨by decide,
    C8_fallback_decision _ "/proj" _ _ (entryName "s" "i" (.obj [])) (by rfl) (by rfl) (by decide)⟩

/-- C9: the fallback recursion is bounded. For every fuel of at least
2 the fuel-indexed handleCacheF computes exactly what handleCache
(fuel 2) computes: the single fallback retry runs with the temporary
directory as base, where the fallback condition is false, so no
deeper recursive call is reachable and the operation terminates after
at most one retry. -/
theorem C9_fallback_bounded (tf : String → JValue → Except String JValue)
    (fuel : Nat) (d : String) (p : Params) (w : World) (h : 2 ≤ fuel) :
    handleCacheF tf fuel d p w = handleCache tf d p w := by
  obtain ⟨k, rfl⟩ : ∃ k, fuel = k + 2 := ⟨fuel - 2, by omega⟩
  rw [handleCache]
  show handleCacheF tf (k + 1 + 1) d p w = handleCacheF tf (1 + 1) d p w
  conv_lhs => rw [handleCacheF]
  conv_rhs => rw [handleCacheF]
  rcases exceptCases (filename p.source p.cacheIdentifier (optionsEff p)) with
    ⟨e, hfn⟩ | ⟨fname, hfn⟩
  · simp only [hfn]
  · simp only [hfn]
    rcases optionCases (read w (pathJoin d fname) p.cacheCompression) with hrd | ⟨v, hrd⟩
    · simp only [hrd]
      by_cases hd : d ∈ w.badDirs
      · simp only [if_pos hd]
        by_cases hfb : (p.cacheDirectory.isNone && (d != tmpdir)) = true
        · simp only [if_pos hfb]
          exact handleCacheF_tmpdir tf k p w
        · simp only [if_neg hfb]
      · simp only [if_neg hd]
        rcases exceptCases (tf p.source (optionsEff p)) with ⟨e, htf⟩ | ⟨result, htf⟩
        · simp only [htf]
        · simp only [htf]
          rcases optionCases (write w (pathJoin d fname) p.cacheCompression result) with
            hwr | ⟨w2, hwr⟩
          · simp only [hwr]
            by_cases hfb : (p.cacheDirectory.isNone && (d != tmpdir)) = true
            · simp only [if_pos hfb, handleCacheF_tmpdir tf k p w]
            · simp only [if_neg hfb]
          · simp only [hwr]
    · simp only [hrd]

/-- Witness for C9 at fuel 5 on a concrete request. -/
theorem C9_fallback_bounded_witness :
    2 ≤ 5
    ∧ handleCacheF (fun _ _ => .ok (.jstr "R")) 5 "/proj"
        ⟨"s", some (.obj []), "i", none, false⟩ ⟨[], [], []⟩
      = handleCache (fun _ _ => .ok (.jstr "R")) "/proj"
        ⟨"s", some (.obj []), "i", none, false⟩ ⟨[], [], []⟩ :=
  ⟨by omega, C9_fallback_bounded _ 5 "/proj" _ _ (by omega)⟩

/-- C10 counterexample: key derivation is not total on options whose
plugins array contains an element lacking a file field. On plugins
[{}], the destructuring const (resolved, request) = file inside
updatePath throws a TypeError, which propagates out of filename
instead of the claimed success. -/
theorem C10_totality_counterexample :
    filename "s" "i" (.obj [("plugins", .arr [.obj []])])
      = .error "TypeError: cannot destructure undefined" := by rfl

/-- C10 amended: key derivation succeeds on every options object
whose array-valued plugins/presets entries each carry a non-null file
value whose truthy request/resolved values are strings; and an entry
whose file object has neither a request nor a resolved field passes
through updatePath untouched. An entry without a usable file value
makes updatePath throw and the error propagates out of filename (see
the counterexample); a serialization failure of the options
themselves is unrepresentable in the inductive value model. -/
theorem C10_totality_amended :
    (∀ src id o, optsOk o = true → ∃ k, filename src id o = .ok k)
    ∧ (∀ item file, jGet item "file" = some file → file ≠ .jnull →
        jGet file "request" = none → jGet file "resolved" = none →
        updatePath item = .ok item) := by
  constructor
  · exact filename_ok_of_optsOk
  · intro item file hg hnn hreq hres
    cases item with
    | jnull => simp [jGet] at hg
    | jbool b => simp [jGet] at hg
    | jnum n => simp [jGet] at hg
    | jstr s => simp [jGet] at hg
    | arr xs => simp [jGet] at hg
    | obj fs =>
      cases file with
      | jnull => exact absurd rfl hnn
      | jbool b => simp only [updatePath, hg, updateField, hreq, hres, jSet_get_self _ _ _ hg]
      | jnum n => simp only [updatePath, hg, updateField, hreq, hres, jSet_get_self _ _ _ hg]
      | jstr s => simp only [updatePath, hg, updateField, hreq, hres, jSet_get_self _ _ _ hg]
      | arr xs => simp only [updatePath, hg, updateField, hreq, hres, jSet_get_self _ _ _ hg]
      | obj gs => simp only [updatePath, hg, updateField, hreq, hres, jSet_get_self _ _ _ hg]

/-- Witness for the amended C10: a well-formed plugin entry derives a
key, and an entry whose file carries neither request nor resolved is
left untouched. -/
theorem C10_totality_amended_witness :
    optsOk (.obj [("plugins",
        .arr [.obj [("file", .obj [("request", .jstr "/x/node_modules/y")])]])]) = true
    ∧ (∃ k, filename "s" "i" (.obj [("plugins",
        .arr [.obj [("file", .obj [("request", .jstr "/x/node_modules/y")])]])]) = .ok k)
    ∧ updatePath (.obj [("file", .obj [("other", .jnull)])])
        = .ok (.obj [("file", .obj [("other", .jnull)])]) :=
  ⟨by rfl,
    C10_totality_amended.1 "s" "i" _ (by rfl),
    C10_totality_amended.2 (.obj [("file", .obj [("other", .jnull)])])
      (.obj [("other", .jnull)]) (by rfl) (by simp) (by rfl) (by rfl)⟩

end BabelCache
